import Mathlib

/-!
Shallow embedding of the completion/hint engine of `shellui`
(`src/shellui/src/ui.rs`), together with proofs about its behaviour.

Rust strings are modelled as lists of characters (`Str`); byte positions
(`line.get(0..pos)`, `str::rfind`, `str::len`) are modelled through the
UTF-8 size of each character (`Char.utf8Size`), so quantities called
"byte index" below agree with the Rust code on every valid UTF-8 string.
`usize` is modelled as `Nat`; `saturating_add`/`saturating_sub` become
`Nat` addition and truncated subtraction.
-/

/-- Rust `&str` / `String`, modelled as a list of characters. -/
abbrev Str := List Char

/-- UTF-8 byte length of a string (Rust `str::len`). -/
def utf8Len (s : Str) : Nat := (s.map Char.utf8Size).sum

/-- Source enum `CommandItem` of `ui.rs`: `Command` is a literal token (subcommand
name or the help pseudo-command), `Arg` a named positional placeholder. -/
inductive CommandItem where
  | command (s : Str)
  | arg (s : Str)
deriving DecidableEq

/-- Source struct `CommandLine(Vec<CommandItem>)` of `ui.rs`: one flattened path. -/
structure CommandLine where
  items : List CommandItem
deriving DecidableEq

/-- Method `CommandLine::to_command_line_iter`: iterate the `Command` (literal)
items only, skipping every `Arg` item. -/
def CommandLine.to_command_line_iter (c : CommandLine) : List Str :=
  c.items.filterMap fun item =>
    match item with
    | .command s => some s
    | .arg _ => none

/-- The slice of `clap::Command` the flattener reads: the declared name,
the declared subcommands in declaration order (`get_subcommands`), and the
identifiers of the declared positional arguments in declaration order
(`get_positionals` / `get_id`). -/
inductive Command where
  | mk (name : Str) (subcommands : List Command) (positionals : List Str)

def Command.name : Command → Str
  | .mk n _ _ => n

def Command.subcommands : Command → List Command
  | .mk _ s _ => s

def Command.positionals : Command → List Str
  | .mk _ _ p => p

/-- Accessor `clap::Command::has_subcommands`. -/
def Command.has_subcommands (c : Command) : Bool :=
  !c.subcommands.isEmpty

/-- The `for arg in command.get_positionals()` loop: `line` grows by one
`Arg` item per positional and each intermediate line is pushed. -/
def fillPositionals (args : List Str) (line : List CommandItem)
    (output : List CommandLine) : List CommandLine :=
  match args with
  | [] => output
  | a :: rest =>
    fillPositionals rest (line ++ [.arg a]) (output ++ [⟨line ++ [.arg a]⟩])

mutual

/-- Method `Ui::recursive_fill_command_tree`: the imperative walker, with the
`output` vector threaded explicitly.  It first pushes `prefix + help`,
then processes the subcommands in order. -/
def recursive_fill_command_tree (parent : Command) (pre : List CommandItem)
    (output : List CommandLine) : List CommandLine :=
  fillSubcommands parent.subcommands pre
    (output ++ [⟨pre ++ [.command "help".data]⟩])
termination_by sizeOf parent
decreasing_by
  cases parent with
  | mk n s p => simp [Command.subcommands]; omega

/-- The `for command in parent.get_subcommands()` loop body of
`recursive_fill_command_tree`: push `prefix + Literal(name)`, then either
recurse (child has subcommands) or push the cumulative positional-argument
extensions (child has none). -/
def fillSubcommands (subs : List Command) (pre : List CommandItem)
    (output : List CommandLine) : List CommandLine :=
  match subs with
  | [] => output
  | c :: rest =>
    let line := pre ++ [.command c.name]
    let output := output ++ [⟨line⟩]
    let output :=
      if c.has_subcommands then
        recursive_fill_command_tree c line output
      else
        fillPositionals c.positionals line output
    fillSubcommands rest pre output
termination_by sizeOf subs
decreasing_by
  all_goals simp
  all_goals omega

end

/-- Method `Ui::parse_command_tree`. -/
def parse_command_tree (command : Command) : List CommandLine :=
  recursive_fill_command_tree command [] []

/-- Source struct `Ui` of `ui.rs`, holding the flattened `commands`. -/
structure Ui where
  commands : List CommandLine

/-- Constructor `Ui::new`. -/
def Ui.new (command : Command) : Ui :=
  ⟨parse_command_tree command⟩

/-- Method `Ui::find_matches(args, limit)`: keep the flattened paths whose
literal items (the `to_command_line_iter` projection), truncated to the
first `limit`, equal the full `args` vector, and whose total item count is
`limit.saturating_add(1)` (no overflow on `Nat`, hence `limit + 1`). -/
def Ui.find_matches (ui : Ui) (args : List Str) (limit : Nat) :
    List CommandLine :=
  (ui.commands.filter fun c =>
      decide (c.to_command_line_iter.take limit = args)).filter
    fun c => decide (c.items.length = limit + 1)

/-- Method `Ui::find_matching_suggestions(args, limit, last_arg)`: from the
matches, project the literal item at index `limit` and keep those that
start with `last_arg`. -/
def Ui.find_matching_suggestions (ui : Ui) (args : List Str) (limit : Nat)
    (last_arg : Str) : List Str :=
  ((ui.find_matches args limit).filterMap
      fun c => c.to_command_line_iter.get? limit).filter
    fun s => last_arg.isPrefixOf s

/-- Parsing state of the tokenizer: outside quotes, inside `'...'`, or
inside `"..."`. -/
inductive SplitState where
  | normal
  | single
  | double
deriving DecidableEq

/-- Modelled from the spec: the tokenizer `shell_words::split`, an external
crate whose source is not under `src/`.  §4.1: shell-style POSIX
word-splitting — unquoted whitespace separates words; single quotes quote
literally; double quotes quote, a backslash inside them escaping only
dollar, backquote, double quote and backslash; a backslash outside quotes
escapes the next character; an unterminated quote (or dangling backslash)
is an error, reported as `none`.  `cur` is the word being accumulated
(`none` when between words), `acc` the words already produced. -/
def splitCore (input : List Char) (st : SplitState) (cur : Option Str)
    (acc : List Str) : Option (List Str) :=
  match input, st with
  | [], .normal =>
      some (acc ++ (match cur with | some w => [w] | none => []))
  | [], .single => none
  | [], .double => none
  | c :: rest, .normal =>
      if c = '\'' then splitCore rest .single (some (cur.getD [])) acc
      else if c = '"' then splitCore rest .double (some (cur.getD [])) acc
      else if c = '\\' then
        match rest with
        | [] => none
        | d :: rest2 => splitCore rest2 .normal (some (cur.getD [] ++ [d])) acc
      else if c.isWhitespace then
        match cur with
        | some w => splitCore rest .normal none (acc ++ [w])
        | none => splitCore rest .normal none acc
      else splitCore rest .normal (some (cur.getD [] ++ [c])) acc
  | c :: rest, .single =>
      if c = '\'' then splitCore rest .normal cur acc
      else splitCore rest .single (some (cur.getD [] ++ [c])) acc
  | c :: rest, .double =>
      if c = '"' then splitCore rest .normal cur acc
      else if c = '\\' then
        match rest with
        | [] => none
        | d :: rest2 =>
          if d = '$' || d.toNat = 96 || d = '"' || d = '\\' then
            splitCore rest2 .double (some (cur.getD [] ++ [d])) acc
          else
            splitCore rest2 .double (some (cur.getD [] ++ ['\\', d])) acc
      else splitCore rest .double (some (cur.getD [] ++ [c])) acc

/-- Function `shell_words::split(line)`, starting outside any quote. -/
def splitWords (line : Str) : Option (List Str) :=
  splitCore line .normal none []

/-- Rust `line.ends_with(char::is_whitespace)`. -/
def endsWithWhitespace (line : Str) : Bool :=
  match line.getLast? with
  | some c => c.isWhitespace
  | none => false

/-- Rust `line.get(0..pos)`: the first `pos` bytes of `line`, or `none`
when `pos` exceeds the byte length or falls inside a character. -/
def takeBytes (s : Str) (pos : Nat) : Option Str :=
  match s, pos with
  | _, 0 => some []
  | [], _ + 1 => none
  | c :: rest, p + 1 =>
      if c.utf8Size ≤ p + 1 then
        (takeBytes rest (p + 1 - c.utf8Size)).map (c :: ·)
      else none

/-- Helper for `rfindStr`: scan `hay`, `ofs` being the byte offset of its
head; prefer the deepest (right-most) occurrence of `needle`. -/
def rfindOfs (hay needle : Str) (ofs : Nat) : Option Nat :=
  match hay with
  | [] => if needle.isEmpty then some ofs else none
  | c :: rest =>
      match rfindOfs rest needle (ofs + c.utf8Size) with
      | some i => some i
      | none => if needle.isPrefixOf (c :: rest) then some ofs else none

/-- Rust `line.rfind(last_arg)`: byte index of the last occurrence of
`needle` as a substring of `hay`. -/
def rfindStr (hay needle : Str) : Option Nat :=
  rfindOfs hay needle 0

/-- Source struct `UiHint(String, Option<String>)` of `ui.rs`: display text and
optional insertable completion suffix. -/
structure UiHint where
  display : Str
  completion : Option Str
deriving DecidableEq

/-- Rust `format!("<{name}>")`. -/
def hintDisplay (name : Str) : Str :=
  '<' :: (name ++ ['>'])

/-- Method `Ui::solve_hint`. -/
def Ui.solve_hint (ui : Ui) (line : Str) : Option UiHint := do
  let args ← splitWords line
  if endsWithWhitespace line then
    let limit := args.length
    let command ← (ui.find_matches args limit).head?
    let item ← command.items.get? limit
    match item with
    | .arg name => some ⟨hintDisplay name, none⟩
    | .command _ => none
  else
    let limit := args.length - 1
    let limited := args.take limit
    let last_arg ← args.getLast?
    let command ← (ui.find_matching_suggestions limited limit last_arg).head?
    let suffix ←
      if last_arg.isPrefixOf command then some (command.drop last_arg.length)
      else none
    some ⟨suffix, some suffix⟩

/-- Method `Ui::solve_complete`. -/
def Ui.solve_complete (ui : Ui) (line : Str) (pos : Nat) :
    Option (Nat × List Str) := do
  let line ← takeBytes line pos
  let args ← splitWords line
  if endsWithWhitespace line || line.isEmpty then
    let limit := args.length
    let completions :=
      ((ui.find_matches args limit).filterMap fun c =>
          c.items.get? limit).filterMap
        fun item =>
          match item with
          | CommandItem.command name => some name
          | CommandItem.arg _ => none
    some (utf8Len line, completions)
  else
    let last_arg ← args.getLast?
    let index ← rfindStr line last_arg
    let limit := args.length - 1
    let limited := args.take limit
    let last_arg2 ← args.getLast?
    let completions := ui.find_matching_suggestions limited limit last_arg2
    some (index, completions)

/-- The error type of `rustyline::Result` as far as this component is
concerned (the engine never constructs one). -/
inductive ReadlineError where
  | io
  | eof
  | interrupted
deriving DecidableEq

/-- Trait method `<Ui as Completer>::complete`: wraps `solve_complete`, replacing a
`None` with `Ok((pos, vec![]))`. -/
def Ui.complete (ui : Ui) (line : Str) (pos : Nat) :
    Except ReadlineError (Nat × List Str) :=
  Except.ok ((ui.solve_complete line pos).getD (pos, []))

/-- The command tree of the unit tests `test_solve_hint_partial`,
`test_solve_hint_full`, `test_solve_hint_no_match` and
`test_solve_complete_partial`: root `test` with subcommands `test1`,
`test2`. -/
def cmdFlat : Command :=
  .mk ("test".data) [.mk ("test1".data) [] [], .mk ("test2".data) [] []] []

def uiFlat : Ui := Ui.new cmdFlat

/-- The command tree of `test_solve_hint_partial_second` and
`test_solve_complete_second`: `test1` has subcommands `test11`, `test12`;
`test2` has none. -/
def cmdNested : Command :=
  .mk ("test".data)
    [.mk ("test1".data)
        [.mk ("test11".data) [] [], .mk ("test12".data) [] []] [],
      .mk ("test2".data) [] []] []

def uiNested : Ui := Ui.new cmdNested

/-- The command tree of `test_solve_hint_args`: `test1` declares the
positional arguments `arg1`, `arg2`; `test2` declares nothing. -/
def cmdArgs : Command :=
  .mk ("test".data)
    [.mk ("test1".data) [] [("arg1".data), ("arg2".data)],
      .mk ("test2".data) [] []] []

def uiArgs : Ui := Ui.new cmdArgs

/-- Evaluated form of `uiFlat`, so that the kernel can compute with it. -/
theorem uiFlat_eq :
    uiFlat = ⟨[⟨[.command ("help".data)]⟩, ⟨[.command ("test1".data)]⟩,
      ⟨[.command ("test2".data)]⟩]⟩ := by
  simp [uiFlat, Ui.new, parse_command_tree, recursive_fill_command_tree,
    fillSubcommands, fillPositionals, cmdFlat, Command.subcommands,
    Command.name, Command.has_subcommands, Command.positionals]

/-- Evaluated form of `uiNested`. -/
theorem uiNested_eq :
    uiNested = ⟨[⟨[.command ("help".data)]⟩, ⟨[.command ("test1".data)]⟩,
      ⟨[.command ("test1".data), .command ("help".data)]⟩,
      ⟨[.command ("test1".data), .command ("test11".data)]⟩,
      ⟨[.command ("test1".data), .command ("test12".data)]⟩,
      ⟨[.command ("test2".data)]⟩]⟩ := by
  simp [uiNested, Ui.new, parse_command_tree, recursive_fill_command_tree,
    fillSubcommands, fillPositionals, cmdNested, Command.subcommands,
    Command.name, Command.has_subcommands, Command.positionals]

/-- Evaluated form of `uiArgs`. -/
theorem uiArgs_eq :
    uiArgs = ⟨[⟨[.command ("help".data)]⟩, ⟨[.command ("test1".data)]⟩,
      ⟨[.command ("test1".data), .arg ("arg1".data)]⟩,
      ⟨[.command ("test1".data), .arg ("arg1".data), .arg ("arg2".data)]⟩,
      ⟨[.command ("test2".data)]⟩]⟩ := by
  simp [uiArgs, Ui.new, parse_command_tree, recursive_fill_command_tree,
    fillSubcommands, fillPositionals, cmdArgs, Command.subcommands,
    Command.name, Command.has_subcommands, Command.positionals]

/- Mirrors of the Rust unit tests in `ui.rs`, as sanity checks of the
embedding. -/

example : uiFlat.solve_hint ("te".data) =
    some ⟨("st1".data), some ("st1".data)⟩ := by
  rw [uiFlat_eq]; decide

example : uiFlat.solve_hint ("test1".data) = some ⟨[], some []⟩ := by
  rw [uiFlat_eq]; decide

example : uiNested.solve_hint ("test1 t".data) =
    some ⟨("est11".data), some ("est11".data)⟩ := by
  rw [uiNested_eq]; decide

example : uiFlat.solve_hint ("a".data) = none := by
  rw [uiFlat_eq]; decide

example : uiArgs.solve_hint ("test1 ".data) =
    some ⟨("<arg1>".data), none⟩ := by
  rw [uiArgs_eq]; decide

example : uiFlat.solve_complete ("te".data) 1 =
    some (0, [("test1".data), ("test2".data)]) := by
  rw [uiFlat_eq]; decide

example : uiNested.solve_complete ("test1 ".data) 6 =
    some (6, [("help".data), ("test11".data), ("test12".data)]) := by
  rw [uiNested_eq]; decide

/-- Stated from the words of claim C1: one path item matched against one
typed token — "a Placeholder item matching any token value, a Literal item
matching only a token whose string equals it exactly". -/
def itemMatchesTok : CommandItem → Str → Bool
  | .command s, tok => decide (s = tok)
  | .arg _, _ => true

/-- Stated from the words of claim C1: "the first `limit` path items,
compared positionally against the first `limit` typed tokens ... all
match, and whose total item count (Literal and Placeholder items together)
is exactly `limit + 1`". -/
def matchesSpec (c : CommandLine) (args : List Str) (limit : Nat) : Bool :=
  decide (c.items.length = limit + 1) &&
    ((c.items.take limit).zip (args.take limit)).all
      fun p => itemMatchesTok p.1 p.2

/-- Stated from the words of claim C2 (and spec §4.2): the cumulative
placeholder extensions of a leaf command — one additional `Placeholder`
item per positional argument, in declaration order. -/
def cumulativeArgPaths (line : List CommandItem) (args : List Str) :
    List CommandLine :=
  (List.range args.length).map fun k =>
    ⟨line ++ ((args.take (k + 1)).map CommandItem.arg)⟩

mutual

/-- Stated from the words of claim C2 (and spec §4.2): the depth-first
walk that, at every node, first emits (accumulated prefix) + Literal
"help", then handles each child subcommand in declared order. -/
def flattenSpec (parent : Command) (pre : List CommandItem) :
    List CommandLine :=
  ⟨pre ++ [.command ("help".data)]⟩ :: flattenSubsSpec parent.subcommands pre
termination_by sizeOf parent
decreasing_by
  cases parent with
  | mk n s p => simp [Command.subcommands]; omega

/-- Stated from the words of claim C2: for each child, emit
prefix + Literal(child_name); recurse into a child that has subcommands;
for a child with none, emit its cumulative placeholder extensions. -/
def flattenSubsSpec (subs : List Command) (pre : List CommandItem) :
    List CommandLine :=
  match subs with
  | [] => []
  | c :: rest =>
    let line := pre ++ [.command c.name]
    (⟨line⟩ ::
        (if c.has_subcommands then flattenSpec c line
         else cumulativeArgPaths line c.positionals))
      ++ flattenSubsSpec rest pre
termination_by sizeOf subs
decreasing_by
  all_goals simp
  all_goals omega

end

theorem cumulativeArgPaths_cons (line : List CommandItem) (a : Str)
    (rest : List Str) :
    cumulativeArgPaths line (a :: rest) =
      ⟨line ++ [.arg a]⟩ :: cumulativeArgPaths (line ++ [.arg a]) rest := by
  unfold cumulativeArgPaths
  rw [List.length_cons, List.range_succ_eq_map]
  simp only [List.map_cons, List.map_map]
  congr 1
  all_goals simp [Function.comp, List.take_succ_cons]

theorem fillPositionals_eq (args : List Str) :
    ∀ (line : List CommandItem) (output : List CommandLine),
      fillPositionals args line output = output ++ cumulativeArgPaths line args := by
  induction args with
  | nil =>
    intro line output
    simp [fillPositionals, cumulativeArgPaths]
  | cons a rest ih =>
    intro line output
    rw [fillPositionals, ih, cumulativeArgPaths_cons]
    simp

theorem fillSubcommands_eq (subs : List Command)
    (h : ∀ c ∈ subs, ∀ pre output,
        recursive_fill_command_tree c pre output = output ++ flattenSpec c pre) :
    ∀ (pre : List CommandItem) (output : List CommandLine),
      fillSubcommands subs pre output = output ++ flattenSubsSpec subs pre := by
  induction subs with
  | nil =>
    intro pre output
    rw [fillSubcommands, flattenSubsSpec]
    simp
  | cons c rest ih =>
    intro pre output
    rw [fillSubcommands, flattenSubsSpec]
    have hrest : ∀ c' ∈ rest, ∀ pre' output',
        recursive_fill_command_tree c' pre' output' = output' ++ flattenSpec c' pre' := by
      intro c' hc'
      exact h c' (List.mem_cons_of_mem _ hc')
    by_cases hc : c.has_subcommands
    · simp only [hc, if_true]
      rw [ih hrest, h c (List.mem_cons_self c rest)]
      simp
    · simp only [hc, if_false]
      rw [ih hrest, fillPositionals_eq]
      simp

theorem recursive_fill_eq_aux :
    ∀ (n : Nat) (p : Command), sizeOf p ≤ n →
      ∀ (pre : List CommandItem) (output : List CommandLine),
        recursive_fill_command_tree p pre output = output ++ flattenSpec p pre := by
  intro n
  induction n with
  | zero =>
    intro p hp
    exfalso
    cases p with
    | mk a b c => simp at hp
  | succ n ih =>
    intro p hp pre output
    cases p with
    | mk name subs pos =>
      have hsub : ∀ c ∈ subs, ∀ pre2 out2,
          recursive_fill_command_tree c pre2 out2 = out2 ++ flattenSpec c pre2 := by
        intro c hc pre2 out2
        apply ih
        have hlt := List.sizeOf_lt_of_mem hc
        simp only [Command.mk.sizeOf_spec] at hp
        omega
      rw [recursive_fill_command_tree, flattenSpec]
      simp only [Command.subcommands]
      rw [fillSubcommands_eq subs hsub]
      simp

theorem recursive_fill_eq (p : Command) (pre : List CommandItem)
    (output : List CommandLine) :
    recursive_fill_command_tree p pre output = output ++ flattenSpec p pre :=
  recursive_fill_eq_aux (sizeOf p) p (Nat.le_refl _) pre output

theorem takeBytes_utf8Len :
    ∀ (s : Str) (pos : Nat) (t : Str), takeBytes s pos = some t → utf8Len t = pos := by
  intro s
  induction s with
  | nil =>
    intro pos t h
    cases pos with
    | zero => simp only [takeBytes, Option.some.injEq] at h; simp [← h, utf8Len]
    | succ p => simp only [takeBytes] at h; cases h
  | cons c rest ih =>
    intro pos t h
    cases pos with
    | zero => simp only [takeBytes, Option.some.injEq] at h; simp [← h, utf8Len]
    | succ p =>
      simp only [takeBytes] at h
      split_ifs at h with h1
      · obtain ⟨t', ht', rfl⟩ := Option.map_eq_some'.mp h
        have h2 := ih _ _ ht'
        simp only [utf8Len, List.map_cons, List.sum_cons]
        simp only [utf8Len] at h2
        omega

theorem head_mem_of_head?_eq {α : Type _} {l : List α} {a : α}
    (h : l.head? = some a) : a ∈ l := by
  cases l with
  | nil => cases h
  | cons x xs =>
    simp only [List.head?_cons, Option.some.injEq] at h
    rw [← h]
    exact List.mem_cons_self x xs

/-- Claim C1, counterexample: on the flattened collection of the tree in
which `test1` declares the positionals `arg1`, `arg2`, with typed tokens
`["test1", "foo"]` and `limit = 2`, the path
`[Literal "test1", Placeholder "arg1", Placeholder "arg2"]` belongs to the
collection, matches positionally in the claim's sense (its first two items
against the two tokens, the Placeholder accepting `"foo"`) and has total
length `limit + 1` — yet `find_matches` yields nothing, because the code
compares `to_command_line_iter().take(limit)` (the Literal items only,
Placeholders skipped) against the full token list. -/
theorem C1_counterexample :
    CommandLine.mk [.command ("test1".data), .arg ("arg1".data),
        .arg ("arg2".data)] ∈ uiArgs.commands
    ∧ matchesSpec
        ⟨[.command ("test1".data), .arg ("arg1".data), .arg ("arg2".data)]⟩
        [("test1".data), ("foo".data)] 2 = true
    ∧ uiArgs.find_matches [("test1".data), ("foo".data)] 2 = [] := by
  rw [uiArgs_eq]
  decide

/-- Claim C1, amended: for every flattened collection, token list and
limit, `find_matches(typed_tokens, limit)` yields exactly those paths (in
collection order) whose Literal items — Placeholder items are skipped by
the comparison, not matched against tokens — truncated to the first
`limit`, equal the entire typed-token list, and whose total item count
(Literal and Placeholder items together) is exactly `limit + 1`. -/
theorem C1_find_matches_characterization (ui : Ui) (args : List Str)
    (limit : Nat) :
    ui.find_matches args limit =
      ui.commands.filter fun c =>
        decide (c.to_command_line_iter.take limit = args) &&
          decide (c.items.length = limit + 1) := by
  unfold Ui.find_matches
  rw [List.filter_filter]
  simp [Bool.and_comm]

/-- Claim C2: flattening (`Ui::new`) produces the path collection of the
depth-first walk described by the spec — at every node first the
(accumulated prefix) + Literal "help" path, then for each child in
declared order prefix + Literal(child_name), recursing into children with
subcommands, and emitting cumulative Placeholder extensions (one more
Placeholder per declared positional, in order) for leaf children. -/
theorem C2_flattener (command : Command) :
    (Ui.new command).commands = flattenSpec command [] := by
  show parse_command_tree command = _
  rw [parse_command_tree, recursive_fill_eq]
  simp

/-- Claim C7: every path yielded by `find_matches(tokens, limit)` has
total length (counting both Literal and Placeholder items) exactly
`limit + 1`. -/
theorem C7_match_length (ui : Ui) (args : List Str) (limit : Nat)
    (c : CommandLine) (h : c ∈ ui.find_matches args limit) :
    c.items.length = limit + 1 := by
  unfold Ui.find_matches at h
  have h2 := (List.mem_filter.mp h).2
  simpa using h2

theorem C7_witness :
    CommandLine.mk [.command ("test1".data)] ∈ uiFlat.find_matches [] 0 ∧
      (CommandLine.mk [.command ("test1".data)]).items.length = 0 + 1 := by
  have hm : CommandLine.mk [.command ("test1".data)] ∈ uiFlat.find_matches [] 0 := by
    rw [uiFlat_eq]; decide
  exact ⟨hm, C7_match_length uiFlat [] 0 _ hm⟩

/-- Claim C3: for a line that tokenizes and ends in whitespace, `hint`
sets `limit` to the token count, takes the first `find_matches(tokens,
limit)` result and, if that path's item at index `limit` is a Placeholder
named `name`, returns the non-insertable hint `<name>`; if the item is a
Literal, or no path matches, it returns `None`. -/
theorem C3_hint_after_whitespace (ui : Ui) (line : Str) (args : List Str)
    (hsplit : splitWords line = some args)
    (hws : endsWithWhitespace line = true) :
    ui.solve_hint line =
      match (ui.find_matches args args.length).head? with
      | some c =>
          (match c.items.get? args.length with
           | some (CommandItem.arg name) => some ⟨hintDisplay name, none⟩
           | some (CommandItem.command _) => none
           | none => none)
      | none => none := by
  unfold Ui.solve_hint
  rw [hsplit]
  simp only [Option.bind_eq_bind, Option.some_bind, hws, if_true]
  cases hm : (ui.find_matches args args.length).head? with
  | none => simp only [hm, Option.none_bind]
  | some c =>
    simp only [hm, Option.some_bind]
    cases hg : c.items.get? args.length with
    | none => simp only [hg, Option.none_bind]
    | some item =>
      simp only [hg, Option.some_bind]
      cases item with
      | command s => rfl
      | arg name => rfl

theorem C3_witness :
    uiArgs.solve_hint ("test1 ".data) = some ⟨("<arg1>".data), none⟩ := by
  have h := C3_hint_after_whitespace uiArgs ("test1 ".data) [("test1".data)]
      (by decide) (by decide)
  rw [h, uiArgs_eq]
  decide

/-- Claim C4: when the line truncated to the cursor ends in whitespace or
is empty, `complete` returns the cursor position paired with the names of
the items at index `limit` of all `find_matches(tokens, limit)` results
whose item at that index is a Literal (`limit` = token count), in
flattener insertion order. -/
theorem C4_complete_after_whitespace (ui : Ui) (line : Str) (pos : Nat)
    (trunc : Str) (args : List Str)
    (htrunc : takeBytes line pos = some trunc)
    (hsplit : splitWords trunc = some args)
    (hws : endsWithWhitespace trunc = true ∨ trunc = []) :
    ui.solve_complete line pos =
      some (pos,
        ((ui.find_matches args args.length).filterMap fun c =>
            c.items.get? args.length).filterMap fun item =>
          match item with
          | CommandItem.command name => some name
          | CommandItem.arg _ => none) := by
  unfold Ui.solve_complete
  rw [htrunc]
  simp only [Option.bind_eq_bind, Option.some_bind]
  rw [hsplit]
  simp only [Option.some_bind]
  have hcond : (endsWithWhitespace trunc || trunc.isEmpty) = true := by
    rcases hws with h | h
    · simp [h]
    · simp [h]
  simp only [hcond, if_true]
  rw [takeBytes_utf8Len line pos trunc htrunc]

theorem C4_witness :
    uiNested.solve_complete ("test1 ".data) 6 =
      some (6, [("help".data), ("test11".data), ("test12".data)]) := by
  have h := C4_complete_after_whitespace uiNested ("test1 ".data) 6
      ("test1 ".data) [("test1".data)] (by decide) (by decide)
      (Or.inl (by decide))
  rw [h, uiNested_eq]
  decide

/-- Claim C5: when the truncated line is non-empty and does not end in
whitespace, `complete` returns the byte index of the last occurrence
(`rfind`) of the final token within the truncated line, paired with the
complete list of full literal strings from
`find_matching_suggestions(tokens without the last, token count - 1, last
token)`. -/
theorem C5_complete_midtoken (ui : Ui) (line : Str) (pos : Nat)
    (trunc : Str) (args : List Str) (last : Str) (idx : Nat)
    (htrunc : takeBytes line pos = some trunc)
    (hsplit : splitWords trunc = some args)
    (hws : endsWithWhitespace trunc = false)
    (hne : trunc ≠ [])
    (hlast : args.getLast? = some last)
    (hidx : rfindStr trunc last = some idx) :
    ui.solve_complete line pos =
      some (idx, ui.find_matching_suggestions (args.take (args.length - 1))
        (args.length - 1) last) := by
  unfold Ui.solve_complete
  rw [htrunc]
  simp only [Option.bind_eq_bind, Option.some_bind]
  rw [hsplit]
  simp only [Option.some_bind]
  have hcond : (endsWithWhitespace trunc || trunc.isEmpty) = false := by
    simp [hws, hne]
  simp only [hcond, Bool.false_eq_true, if_false]
  rw [hlast]
  simp only [Option.some_bind]
  rw [hidx]
  simp only [Option.some_bind]

theorem C5_witness :
    uiFlat.solve_complete ("te".data) 2 =
      some (0, [("test1".data), ("test2".data)]) := by
  have h := C5_complete_midtoken uiFlat ("te".data) 2 ("te".data)
      [("te".data)] ("te".data) 0 (by decide) (by decide) (by decide)
      (by decide) (by decide) (by decide)
  rw [h, uiFlat_eq]
  decide

/-- Claim C6: for a non-empty line not ending in whitespace, `hint` takes
the first result of `find_matching_suggestions` over all tokens but the
last, with the last token as partial prefix, and returns the hint whose
display text and insertable suffix are both the matched literal stripped
of that prefix; with no matching suggestion it returns `None`.  (The
defensive `strip_prefix` failure branch is proved unreachable: every
yielded suggestion starts with the last token.) -/
theorem C6_hint_midtoken (ui : Ui) (line : Str) (args : List Str)
    (last : Str)
    (hne : line ≠ [])
    (hws : endsWithWhitespace line = false)
    (hsplit : splitWords line = some args)
    (hlast : args.getLast? = some last) :
    ui.solve_hint line =
      match (ui.find_matching_suggestions (args.take (args.length - 1))
          (args.length - 1) last).head? with
      | some s => some ⟨s.drop last.length, some (s.drop last.length)⟩
      | none => none := by
  unfold Ui.solve_hint
  rw [hsplit]
  simp only [Option.bind_eq_bind, Option.some_bind, hws, Bool.false_eq_true,
    if_false]
  rw [hlast]
  simp only [Option.some_bind]
  cases hm : (ui.find_matching_suggestions (args.take (args.length - 1))
      (args.length - 1) last).head? with
  | none => simp only [hm, Option.none_bind]
  | some s =>
    have hpre : last.isPrefixOf s = true := by
      have hmem := head_mem_of_head?_eq hm
      unfold Ui.find_matching_suggestions at hmem
      exact (List.mem_filter.mp hmem).2
    simp only [hm, Option.some_bind, hpre, if_true]

theorem C6_witness :
    uiFlat.solve_hint ("te".data) = some ⟨("st1".data), some ("st1".data)⟩ := by
  have h := C6_hint_midtoken uiFlat ("te".data) [("te".data)] ("te".data)
      (by decide) (by decide) (by decide) (by decide)
  rw [h, uiFlat_eq]
  decide

/-- Claim C8: a tokenization failure (here: an unterminated quote) makes
`hint` return `None` and `solve_complete` return no result; the public
`complete` still succeeds with an empty candidate list, so the failure is
never propagated as an error out of either operation. -/
theorem C8_tokenize_error (ui : Ui) (line trunc : Str) (pos : Nat)
    (hline : splitWords line = none)
    (htrunc : takeBytes line pos = some trunc)
    (htok : splitWords trunc = none) :
    ui.solve_hint line = none ∧ ui.solve_complete line pos = none ∧
      ui.complete line pos = Except.ok (pos, []) := by
  have h1 : ui.solve_hint line = none := by
    unfold Ui.solve_hint
    rw [hline]
    rfl
  have h2 : ui.solve_complete line pos = none := by
    unfold Ui.solve_complete
    rw [htrunc]
    simp only [Option.bind_eq_bind, Option.some_bind]
    rw [htok]
    rfl
  refine ⟨h1, h2, ?_⟩
  unfold Ui.complete
  rw [h2]
  rfl

theorem C8_witness :
    uiFlat.solve_hint ("'abc".data) = none ∧
      uiFlat.solve_complete ("'abc".data) 4 = none ∧
      uiFlat.complete ("'abc".data) 4 = Except.ok (4, []) :=
  C8_tokenize_error uiFlat ("'abc".data) ("'abc".data) 4 (by decide)
    (by decide) (by decide)

/-- The engine operations as explicit state transformers: a Rust method on
`&self` returns its result together with the receiver, which it cannot
mutate. -/
def hint_call (ui : Ui) (line : Str) : Option UiHint × Ui :=
  (ui.solve_hint line, ui)

def complete_call (ui : Ui) (line : Str) (pos : Nat) :
    Except ReadlineError (Nat × List Str) × Ui :=
  (ui.complete line pos, ui)

/-- Claim C9: two calls of `hint` (respectively `complete`) with identical
arguments return identical results, and neither call mutates the
flattened tree: both are pure functions of the line content, cursor, and
the immutable tree. -/
theorem C9_pure (ui : Ui) (line : Str) (pos : Nat) :
    (hint_call ui line).2 = ui ∧
      (complete_call ui line pos).2 = ui ∧
      (hint_call (hint_call ui line).2 line).1 = (hint_call ui line).1 ∧
      (complete_call (complete_call ui line pos).2 line pos).1 =
        (complete_call ui line pos).1 :=
  ⟨rfl, rfl, rfl, rfl⟩

/-- Claim C10: the public completion entry point is total and never
returns an error; whenever the internal computation produces nothing —
including a cursor position out of byte range or not on a character
boundary, and a tokenization failure on the truncated line — it returns
success with the pair (cursor position, empty candidate list). -/
theorem C10_complete_total (ui : Ui) (line : Str) (pos : Nat) :
    (∃ r, ui.complete line pos = Except.ok r) ∧
      (ui.solve_complete line pos = none →
        ui.complete line pos = Except.ok (pos, [])) ∧
      (takeBytes line pos = none →
        ui.complete line pos = Except.ok (pos, [])) ∧
      (∀ trunc, takeBytes line pos = some trunc → splitWords trunc = none →
        ui.complete line pos = Except.ok (pos, [])) := by
  refine ⟨⟨_, rfl⟩, ?_, ?_, ?_⟩
  · intro h
    unfold Ui.complete
    rw [h]
    rfl
  · intro h
    have h2 : ui.solve_complete line pos = none := by
      unfold Ui.solve_complete
      rw [h]
      rfl
    unfold Ui.complete
    rw [h2]
    rfl
  · intro trunc ht hs
    have h2 : ui.solve_complete line pos = none := by
      unfold Ui.solve_complete
      rw [ht]
      simp only [Option.bind_eq_bind, Option.some_bind]
      rw [hs]
      rfl
    unfold Ui.complete
    rw [h2]
    rfl

theorem C10_witness :
    uiFlat.complete ("ab".data) 5 = Except.ok (5, []) :=
  (C10_complete_total uiFlat ("ab".data) 5).2.2.1 (by decide)
